import Mathlib

/-!
Shallow embedding of `src/match_Excel.py` (job/candidate matching pipeline).

Modelling conventions:
* Python strings are modelled as `List Char` (`Str`).
* A pandas cell is `Cell`: `na` models NaN/None (`pd.isna`), `str` a string
  cell, `num` a numeric cell.  Machine floats are modelled as exact
  rationals `ℚ`: every value the program parses comes from a finite decimal
  literal with an optional exponent, and the program only compares the
  parsed values with `<=`.  The IEEE specials `inf`/`nan` accepted by
  Python's `float` are outside the model.
* A pandas row is an ordered association list of column name to cell
  (`Row`); `Row.getCell` models `row[col]`, `Row.setCol` models
  `df[col] = value` (replace in place when the column exists, append at
  the end otherwise).
* Python `dict`s (insertion ordered) are association lists with
  first-occurrence lookup; `dictInsert` models `d[k] = v`.
* File I/O (reading the workbooks, creating the output directory, the
  actual `to_excel` write) is outside the model; `export_to_single_excel`
  returns the combined table it would write, `none` when the source
  creates no file.
-/

set_option autoImplicit false
set_option synthInstance.maxSize 512
set_option maxRecDepth 8192

namespace JobMatch

abbrev Str := List Char

/-- A pandas cell: NaN/None, a string, or a number (floats as exact `ℚ`). -/
inductive Cell where
  | na : Cell
  | str : Str → Cell
  | num : ℚ → Cell
deriving DecidableEq

abbrev Row := List (Str × Cell)

/-- Models `row[col]` for the columns the program reads; a missing column
behaves like NaN (the configured columns are assumed present, as the
source would raise a `KeyError` otherwise). -/
def Row.getCell : Row → Str → Cell
  | [], _ => Cell.na
  | (c, v) :: rest, col => if c = col then v else Row.getCell rest col

/-- Models `df[col] = value` on one row: overwrite in place when the column
exists, append at the end otherwise (pandas column-assignment semantics,
src line 156 and line 167). -/
def Row.setCol : Row → Str → Cell → Row
  | [], col, v => [(col, v)]
  | (c, w) :: rest, col, v =>
    if c = col then (col, v) :: rest else (c, w) :: Row.setCol rest col v

/-- Models the column reorder `df[[job_id_col] + [c for c in cols if c != job_id_col]]`
(src lines 159-160): the named column first, the remaining columns in
their original order. -/
def Row.moveToFront (r : Row) (col : Str) : Row :=
  r.filter (fun p => decide (p.1 = col)) ++ r.filter (fun p => decide (p.1 ≠ col))

/-- The two record-level error kinds of the key codec
(`InvalidKeyFormat` / `InvalidCeilingValue`, both `ValueError` in the source). -/
inductive KeyError where
  | invalidKeyFormat : KeyError
  | invalidCeilingValue : KeyError
deriving DecidableEq

instance exceptDecEq {ε α : Type} [DecidableEq ε] [DecidableEq α] :
    DecidableEq (Except ε α) := fun x y =>
  match x, y with
  | Except.ok a, Except.ok b =>
    if h : a = b then isTrue (by rw [h]) else isFalse (by intro hc; cases hc; exact h rfl)
  | Except.ok _, Except.error _ => isFalse (by intro hc; cases hc)
  | Except.error _, Except.ok _ => isFalse (by intro hc; cases hc)
  | Except.error e, Except.error f =>
    if h : e = f then isTrue (by rw [h]) else isFalse (by intro hc; cases hc; exact h rfl)

/-- Models `str(key_str).count('_')` (src line 49). -/
def countKeySep (s : Str) : Nat := (s.filter (fun c => decide (c = '_'))).length

/-- Models `str.split('_')` (src line 52). -/
def splitSep : Str → List Str
  | [] => [[]]
  | c :: rest =>
    if c = '_' then [] :: splitSep rest
    else
      match splitSep rest with
      | [] => [[c]]
      | t :: ts => (c :: t) :: ts

/-- Models `'_'.join(parts)` (src line 53). -/
def joinSep : List Str → Str
  | [] => []
  | [t] => t
  | t :: u :: ts => t ++ '_' :: joinSep (u :: ts)

/-- Digit run at the front of a string: the digits and the rest. -/
def takeDigits : Str → Str × Str
  | [] => ([], [])
  | c :: rest =>
    if c.isDigit then
      let p := takeDigits rest
      (c :: p.1, p.2)
    else ([], c :: rest)

/-- Value of a digit string as a natural number. -/
def digitsToNat (l : Str) : Nat := l.foldl (fun a c => a * 10 + (c.toNat - 48)) 0

/-- Python `float()` strips surrounding whitespace. -/
def pyStrip (s : Str) : Str :=
  ((s.dropWhile Char.isWhitespace).reverse.dropWhile Char.isWhitespace).reverse

/-- Leading sign: `true` means negative. -/
def parseSign : Str → Bool × Str
  | '+' :: r => (false, r)
  | '-' :: r => (true, r)
  | r => (false, r)

/-- Exponent part after the `e`/`E` of a float literal: `sn / 10 ^ fl` is
the exact value of the mantissa, and the exponent scales it by a power of
ten (folded into the single `mkRat` so the value stays one exact
fraction). -/
def parseExpPart (sn : Int) (fl : Nat) (r : Str) : Option ℚ :=
  let p := parseSign r
  let d := takeDigits p.2
  if d.1 = [] ∨ d.2 ≠ [] then none
  else
    let e := digitsToNat d.1
    some (if p.1 then mkRat sn (10 ^ fl * 10 ^ e)
          else mkRat (sn * Int.ofNat (10 ^ e)) (10 ^ fl))

/-- Models Python `float(s)` (src line 55) on the finite decimal literals
the program can meet: optional whitespace and sign, digits with an
optional fraction, an optional exponent.  The exact value
`sign * digits / 10 ^ fractionLength` is built as one fraction.  The IEEE
specials `inf`/`nan` are outside the model; tokens never contain `_`
because they come from a `'_'` split. -/
def parseFloat (s : Str) : Option ℚ :=
  let t := pyStrip s
  let sg := parseSign t
  let ip := takeDigits sg.2
  let fr : Str × Str :=
    match ip.2 with
    | '.' :: rest => takeDigits rest
    | _ => ([], ip.2)
  let hasDot : Bool := match ip.2 with
    | '.' :: _ => true
    | _ => false
  if ip.1 = [] ∧ fr.1 = [] then none
  else
    let n : Nat := digitsToNat ip.1 * 10 ^ fr.1.length + digitsToNat fr.1
    let sn : Int := if sg.1 then -(Int.ofNat n) else Int.ofNat n
    let rest : Str := if hasDot then fr.2 else ip.2
    match rest with
    | [] => some (mkRat sn (10 ^ fr.1.length))
    | 'e' :: r3 => parseExpPart sn fr.1.length r3
    | 'E' :: r3 => parseExpPart sn fr.1.length r3
    | _ => none

/-- Embeds `parse_composite_key` (src lines 47-59).  `pfx` is the source's
`prefix` variable (a reserved word in Lean).  A `num` cell stringifies via
`str()` to a float repr, which never contains `'_'`, hence the format
error, exactly as in the source. -/
def parse_composite_key (key : Cell) : Except KeyError (Str × ℚ × List Str) :=
  match key with
  | Cell.na => Except.error KeyError.invalidKeyFormat
  | Cell.num _ => Except.error KeyError.invalidKeyFormat
  | Cell.str s =>
    if ¬ ('_' ∈ s) ∨ countKeySep s ≠ 3 then Except.error KeyError.invalidKeyFormat
    else
      let parts := splitSep s
      let pfx := joinSep (parts.take 3)
      match parseFloat (parts.getD 3 []) with
      | none => Except.error KeyError.invalidCeilingValue
      | some q => Except.ok (pfx, q, parts)

/-- The configurable column names (src lines 15-23). -/
structure Config where
  job_id_col : Str
  jobs_composite_key_col : Str
  candidate_id_col : Str
  cands_composite_key_col : Str
deriving DecidableEq

/-- The default column configuration from the source. -/
def defaultConfig : Config :=
  ⟨"job_id".toList, "composit_key".toList, "candidate_id".toList, "composit_key".toList⟩

/-- One entry of a prefix bucket: the dict built at src lines 73-77. -/
structure CandEntry where
  candidate_id : Cell
  salary : ℚ
  full_row : Row
deriving DecidableEq

/-- The candidate index `candidates_by_prefix`: an insertion-ordered dict
from key pfx to bucket. -/
abbrev Index := List (Str × List CandEntry)

/-- First-occurrence association-list lookup (Python dict access / `in`). -/
def dictFind {α β : Type} [DecidableEq α] : List (α × β) → α → Option β
  | [], _ => none
  | (k, v) :: rest, a => if k = a then some v else dictFind rest a

/-- Python `d[k] = v`: replace in place when the key exists, append at the
end otherwise. -/
def dictInsert {α β : Type} [DecidableEq α] : List (α × β) → α → β → List (α × β)
  | [], a, v => [(a, v)]
  | (k, w) :: rest, a, v =>
    if k = a then (a, v) :: rest else (k, w) :: dictInsert rest a v

/-- Append an entry to the bucket of key pfx `p`, creating the bucket when
absent (src lines 71-77). -/
def idxAppend : Index → Str → CandEntry → Index
  | [], p, e => [(p, [e])]
  | (k, b) :: rest, p, e =>
    if k = p then (k, b ++ [e]) :: rest else (k, b) :: idxAppend rest p e

/-- One iteration of the candidate-index loop (src lines 67-81): a record
whose key fails to parse is skipped, a record that parses is appended to
its bucket. -/
def candidateStep (cfg : Config) (idx : Index) (row : Row) : Index :=
  match parse_composite_key (Row.getCell row cfg.cands_composite_key_col) with
  | Except.error _ => idx
  | Except.ok (pfx, sal, _) =>
    idxAppend idx pfx ⟨Row.getCell row cfg.candidate_id_col, sal, row⟩

/-- The candidate index built from the candidates table (src lines 66-83). -/
def buildIndex (cfg : Config) (cands : List Row) : Index :=
  cands.foldl (candidateStep cfg) []

/-- The per-job result dict (src lines 105-110, 114-119, 124-129).  The
source stores `count = len(matches)` in the non-empty branch and
`count = 0` with an empty frame otherwise; both equal the length of
`matches`.  `matchRows` embeds the source's `'matches'` entry (the word
itself is reserved syntax here). -/
structure MatchResult where
  job_key : Cell
  target_salary : ℚ
  matchRows : List Row
  count : Nat
deriving DecidableEq

/-- The body of the per-job loop (src lines 86-133): `none` when the job's
key fails to parse (the job is skipped), otherwise the `(job_id, result)`
pair stored into `results`. -/
def processJob (cfg : Config) (idx : Index) (row : Row) : Option (Cell × MatchResult) :=
  let job_id := Row.getCell row cfg.job_id_col
  let job_key := Row.getCell row cfg.jobs_composite_key_col
  match parse_composite_key job_key with
  | Except.error _ => none
  | Except.ok (pfx, target, _) =>
    match dictFind idx pfx with
    | some bucket =>
      let ms := (bucket.filter (fun c => decide (c.salary ≤ target))).map CandEntry.full_row
      some (job_id, ⟨job_key, target, ms, ms.length⟩)
    | none => some (job_id, ⟨job_key, target, [], 0⟩)

/-- Fold step over the jobs table: a skipped job leaves `results`
untouched, otherwise `results[job_id] = data`. -/
def jobStep (cfg : Config) (idx : Index) (res : List (Cell × MatchResult)) (row : Row) :
    List (Cell × MatchResult) :=
  match processJob cfg idx row with
  | none => res
  | some (id, r) => dictInsert res id r

/-- Embeds `find_matching_candidates_for_all_jobs` (src lines 61-135). -/
def find_matching_candidates_for_all_jobs (cfg : Config) (jobs cands : List Row) :
    List (Cell × MatchResult) :=
  jobs.foldl (jobStep cfg (buildIndex cfg cands)) []

/-- The preview column name added at src line 167. -/
def extractedSalaryCol : Str := "extracted_salary".toList

/-- The lambda of src lines 167-169: `None` when the key cell is NaN,
otherwise the parsed ceiling; a malformed key would raise (propagated as
`Except.error`). -/
def previewSalary (key : Cell) : Except KeyError Cell :=
  match key with
  | Cell.na => Except.ok Cell.na
  | k => (parse_composite_key k).map (fun t => Cell.num t.2.1)

/-- One exported row (src lines 153-169): the `job_id` column is written
(line 156) and moved to the front (lines 159-160); the DataFrame appended
to the output list is then mutated in place by the preview step, which
adds the `extracted_salary` column (line 167) — the appended frame and the
previewed frame are the same object. -/
def exportRow (cfg : Config) (job_id : Cell) (r : Row) : Except KeyError Row :=
  let r1 := Row.setCol r cfg.job_id_col job_id
  let r2 := Row.moveToFront r1 cfg.job_id_col
  (previewSalary (Row.getCell r2 cfg.cands_composite_key_col)).map
    (Row.setCol r2 extractedSalaryCol)

/-- The export loop over `results` (src lines 150-173): jobs with an empty
match set are skipped; each non-empty job contributes its block of rows
and its `len(match_df)` to `total_matches`. -/
def exportBlocks (cfg : Config) : List (Cell × MatchResult) →
    Except KeyError (List (List Row) × Nat)
  | [] => Except.ok ([], 0)
  | (id, d) :: rest =>
    if d.matchRows = [] then exportBlocks cfg rest
    else do
      let block ← d.matchRows.mapM (exportRow cfg id)
      let p ← exportBlocks cfg rest
      Except.ok (block :: p.1, d.matchRows.length + p.2)

/-- Embeds `export_to_single_excel` (src lines 137-198): `ok none` models
the no-file branch (lines 194-196, every job empty), `ok (some (rows, n))`
the concatenated table written to the single workbook together with the
returned `total_matches` (lines 175-185). -/
def export_to_single_excel (cfg : Config) (results : List (Cell × MatchResult)) :
    Except KeyError (Option (List Row × Nat)) := do
  let p ← exportBlocks cfg results
  if p.1 = [] then Except.ok none
  else Except.ok (some (p.1.flatten, p.2))

/-! ### Characterizations used by the theorems -/

/-- The bucket entry a candidate row contributes to the bucket of key pfx
`p`, if any: the row's key must parse and its pfx must be `p`. -/
def entryFor (cfg : Config) (p : Str) (row : Row) : Option CandEntry :=
  match parse_composite_key (Row.getCell row cfg.cands_composite_key_col) with
  | Except.error _ => none
  | Except.ok (pfx, sal, _) =>
    if pfx = p then some ⟨Row.getCell row cfg.candidate_id_col, sal, row⟩ else none

/-- The `MatchResult` the results dict ends up holding for a given
`job_id` key: the result of the last job row that parses and carries that
id ("last write wins" for the dict assignment at src lines 105, 114, 124). -/
def resultsFor (cfg : Config) (idx : Index) : List Row → Cell → Option MatchResult
  | [], _ => none
  | row :: rest, k =>
    match resultsFor cfg idx rest k with
    | some r => some r
    | none =>
      match processJob cfg idx row with
      | some (id, r) => if id = k then some r else none
      | none => none

/-! ### Concrete sample data (used by witnesses and counterexamples) -/

/-- A candidate with key `12_3_4_2.0` (ceiling 2.0). -/
def candRow1 : Row :=
  [("candidate_id".toList, Cell.str "1".toList),
   ("composit_key".toList, Cell.str "12_3_4_2.0".toList)]

/-- A candidate with key `12_3_4_3.5` (ceiling 3.5). -/
def candRow2 : Row :=
  [("candidate_id".toList, Cell.str "2".toList),
   ("composit_key".toList, Cell.str "12_3_4_3.5".toList)]

/-- A candidate with key `99_9_9_1.0` (a different key pfx). -/
def candRow3 : Row :=
  [("candidate_id".toList, Cell.str "3".toList),
   ("composit_key".toList, Cell.str "99_9_9_1.0".toList)]

/-- A candidate whose key has only two tokens and fails to parse. -/
def badCandRow : Row :=
  [("candidate_id".toList, Cell.str "9".toList),
   ("composit_key".toList, Cell.str "bad_key".toList)]

/-- The job `J1` with key `12_3_4_3.0` (ceiling 3.0). -/
def jobRow1 : Row :=
  [("job_id".toList, Cell.str "J1".toList),
   ("composit_key".toList, Cell.str "12_3_4_3.0".toList)]

/-- The job `J2` with key `12_3_4_4.0` (ceiling 4.0, same pfx as `J1`). -/
def jobRowA : Row :=
  [("job_id".toList, Cell.str "J2".toList),
   ("composit_key".toList, Cell.str "12_3_4_4.0".toList)]

/-- A job whose key has only three tokens and fails to parse. -/
def badJobRow : Row :=
  [("job_id".toList, Cell.str "JX".toList),
   ("composit_key".toList, Cell.str "12_3_4".toList)]

/-- The sample candidates table of the spec's end-to-end example. -/
def sampleCands : List Row := [candRow1, candRow2, candRow3]

/-- The sample jobs table of the spec's end-to-end example. -/
def sampleJobs : List Row := [jobRow1]

/-- First of two job records sharing the id `J1` (key `a_b_c_1.0`). -/
def dupJobRow1 : Row :=
  [("job_id".toList, Cell.str "J1".toList),
   ("composit_key".toList, Cell.str "a_b_c_1.0".toList)]

/-- Second of two job records sharing the id `J1` (key `a_b_c_2.0`). -/
def dupJobRow2 : Row :=
  [("job_id".toList, Cell.str "J1".toList),
   ("composit_key".toList, Cell.str "a_b_c_2.0".toList)]

/-- A jobs table holding two records with the same `job_id`. -/
def dupJobs : List Row := [dupJobRow1, dupJobRow2]

/-! ### Key codec lemmas -/

theorem splitSep_ne_nil (s : Str) : splitSep s ≠ [] := by
  cases s with
  | nil => simp [splitSep]
  | cons c rest =>
    simp only [splitSep]
    by_cases hc : c = '_'
    · simp [hc]
    · simp only [if_neg hc]
      cases splitSep rest <;> simp

theorem splitSep_sep (l : Str) : splitSep ('_' :: l) = [] :: splitSep l := by
  simp [splitSep]

theorem splitSep_cons_ne (c : Char) (l : Str) (hc : c ≠ '_') :
    splitSep (c :: l) =
      match splitSep l with
      | [] => [[c]]
      | t :: ts => (c :: t) :: ts := by
  simp [splitSep, hc]

theorem splitSep_noSep (A : Str) (h : '_' ∉ A) : splitSep A = [A] := by
  induction A with
  | nil => rfl
  | cons c rest ih =>
    have hc : c ≠ '_' := fun e => h (by rw [e]; exact List.mem_cons_self _ _)
    have hr : '_' ∉ rest := fun m => h (List.mem_cons_of_mem _ m)
    rw [splitSep_cons_ne c rest hc, ih hr]

theorem splitSep_noSep_append (A l : Str) (h : '_' ∉ A) :
    splitSep (A ++ '_' :: l) = A :: splitSep l := by
  induction A with
  | nil => simpa using splitSep_sep l
  | cons c rest ih =>
    have hc : c ≠ '_' := fun e => h (by rw [e]; exact List.mem_cons_self _ _)
    have hr : '_' ∉ rest := fun m => h (List.mem_cons_of_mem _ m)
    rw [List.cons_append, splitSep_cons_ne c _ hc, ih hr]

theorem countKeySep_append (a b : Str) :
    countKeySep (a ++ b) = countKeySep a + countKeySep b := by
  simp [countKeySep, List.filter_append]

theorem countKeySep_sep_cons (l : Str) : countKeySep ('_' :: l) = countKeySep l + 1 := by
  simp [countKeySep, List.filter_cons]

theorem countKeySep_cons_ne (c : Char) (l : Str) (hc : c ≠ '_') :
    countKeySep (c :: l) = countKeySep l := by
  simp [countKeySep, List.filter_cons, hc]

theorem countKeySep_noSep (A : Str) (h : '_' ∉ A) : countKeySep A = 0 := by
  induction A with
  | nil => rfl
  | cons c rest ih =>
    have hc : c ≠ '_' := fun e => h (by rw [e]; exact List.mem_cons_self _ _)
    have hr : '_' ∉ rest := fun m => h (List.mem_cons_of_mem _ m)
    rw [countKeySep_cons_ne c rest hc, ih hr]

theorem noSep_of_countKeySep_zero (s : Str) (h : countKeySep s = 0) : '_' ∉ s := by
  intro hm
  have h0 : s.filter (fun c => decide (c = '_')) = [] := by
    have := h
    simpa [countKeySep, List.length_eq_zero] using this
  have h1 : '_' ∈ s.filter (fun c => decide (c = '_')) :=
    List.mem_filter.mpr ⟨hm, by decide⟩
  rw [h0] at h1
  exact absurd h1 (List.not_mem_nil _)

theorem countKeySep_succ_decompose (s : Str) (n : ℕ) (h : countKeySep s = n + 1) :
    ∃ A t, '_' ∉ A ∧ s = A ++ '_' :: t ∧ countKeySep t = n := by
  induction s with
  | nil => simp [countKeySep] at h
  | cons c rest ih =>
    by_cases hc : c = '_'
    · subst hc
      refine ⟨[], rest, by simp, rfl, ?_⟩
      rw [countKeySep_sep_cons] at h
      omega
    · rw [countKeySep_cons_ne c rest hc] at h
      obtain ⟨A, t, hA, he, hn⟩ := ih h
      refine ⟨c :: A, t, ?_, by rw [he]; rfl, hn⟩
      intro hm
      rcases List.mem_cons.mp hm with e | e
      · exact hc e.symm
      · exact hA e

theorem count_three_decompose (s : Str) (h : countKeySep s = 3) :
    ∃ A B C N, ('_' ∉ A ∧ '_' ∉ B ∧ '_' ∉ C ∧ '_' ∉ N) ∧
      s = A ++ '_' :: (B ++ '_' :: (C ++ '_' :: N)) := by
  obtain ⟨A, t1, hA, e1, h1⟩ := countKeySep_succ_decompose s 2 h
  obtain ⟨B, t2, hB, e2, h2⟩ := countKeySep_succ_decompose t1 1 h1
  obtain ⟨C, N, hC, e3, h3⟩ := countKeySep_succ_decompose t2 0 h2
  exact ⟨A, B, C, N, ⟨hA, hB, hC, noSep_of_countKeySep_zero N h3⟩, by rw [e1, e2, e3]⟩

theorem count_of_decomposed (A B C N : Str)
    (hA : '_' ∉ A) (hB : '_' ∉ B) (hC : '_' ∉ C) (hN : '_' ∉ N) :
    countKeySep (A ++ '_' :: (B ++ '_' :: (C ++ '_' :: N))) = 3 := by
  rw [countKeySep_append, countKeySep_sep_cons, countKeySep_append, countKeySep_sep_cons,
    countKeySep_append, countKeySep_sep_cons, countKeySep_noSep A hA, countKeySep_noSep B hB,
    countKeySep_noSep C hC, countKeySep_noSep N hN]

theorem splitSep_of_decomposed (A B C N : Str)
    (hA : '_' ∉ A) (hB : '_' ∉ B) (hC : '_' ∉ C) (hN : '_' ∉ N) :
    splitSep (A ++ '_' :: (B ++ '_' :: (C ++ '_' :: N))) = [A, B, C, N] := by
  rw [splitSep_noSep_append A _ hA, splitSep_noSep_append B _ hB, splitSep_noSep_append C _ hC,
    splitSep_noSep N hN]

theorem parse_composite_key_ok_of_decomposed (A B C N : Str) (q : ℚ)
    (hA : '_' ∉ A) (hB : '_' ∉ B) (hC : '_' ∉ C) (hN : '_' ∉ N)
    (hq : parseFloat N = some q) :
    parse_composite_key (Cell.str (A ++ '_' :: (B ++ '_' :: (C ++ '_' :: N))))
      = Except.ok (A ++ '_' :: (B ++ '_' :: C), q, [A, B, C, N]) := by
  have hmem : '_' ∈ A ++ '_' :: (B ++ '_' :: (C ++ '_' :: N)) := by
    exact List.mem_append_right _ (List.mem_cons_self _ _)
  have hcount := count_of_decomposed A B C N hA hB hC hN
  have hsplit := splitSep_of_decomposed A B C N hA hB hC hN
  simp only [parse_composite_key, hmem, hcount, not_true, ne_eq, not_false_iff, or_self,
    if_false, if_neg, hsplit]
  simp [hsplit, hq, joinSep, List.getD]

theorem parse_composite_key_err_of_count (s : Str) (h : countKeySep s ≠ 3) :
    parse_composite_key (Cell.str s) = Except.error KeyError.invalidKeyFormat := by
  simp [parse_composite_key, h]

theorem parse_composite_key_ceiling_err (A B C N : Str)
    (hA : '_' ∉ A) (hB : '_' ∉ B) (hC : '_' ∉ C) (hN : '_' ∉ N)
    (hq : parseFloat N = none) :
    parse_composite_key (Cell.str (A ++ '_' :: (B ++ '_' :: (C ++ '_' :: N))))
      = Except.error KeyError.invalidCeilingValue := by
  have hmem : '_' ∈ A ++ '_' :: (B ++ '_' :: (C ++ '_' :: N)) := by
    exact List.mem_append_right _ (List.mem_cons_self _ _)
  have hcount := count_of_decomposed A B C N hA hB hC hN
  have hsplit := splitSep_of_decomposed A B C N hA hB hC hN
  simp only [parse_composite_key, hmem, hcount]
  simp [hsplit, hq, List.getD]

/-! ### Association-list (Python dict) lemmas -/

theorem dictFind_dictInsert {α β : Type} [DecidableEq α] (d : List (α × β)) (k a : α) (v : β) :
    dictFind (dictInsert d k v) a = if k = a then some v else dictFind d a := by
  induction d with
  | nil => simp only [dictInsert, dictFind]
  | cons p rest ih =>
    obtain ⟨k', w⟩ := p
    by_cases h1 : k' = k
    · subst h1
      simp only [dictInsert, if_pos rfl, dictFind]
      by_cases h2 : k' = a <;> simp [h2]
    · simp only [dictInsert, if_neg h1, dictFind]
      by_cases h2 : k' = a
      · subst h2
        have hka : k ≠ k' := fun e => h1 e.symm
        simp [dictFind, hka]
      · simp [dictFind, h2, ih]

theorem keys_dictInsert {α β : Type} [DecidableEq α] (d : List (α × β)) (k : α) (v : β) :
    (dictInsert d k v).map Prod.fst =
      if k ∈ d.map Prod.fst then d.map Prod.fst else d.map Prod.fst ++ [k] := by
  induction d with
  | nil => simp [dictInsert]
  | cons p rest ih =>
    obtain ⟨k', w⟩ := p
    by_cases h1 : k' = k
    · subst h1
      simp [dictInsert]
    · simp only [dictInsert, if_neg h1, List.map_cons]
      by_cases h2 : k ∈ rest.map Prod.fst
      · simp [h2, ih, Ne.symm h1]
      · simp [h2, ih, Ne.symm h1]

theorem nodupKeys_dictInsert {α β : Type} [DecidableEq α] (d : List (α × β)) (k : α) (v : β)
    (h : (d.map Prod.fst).Nodup) : ((dictInsert d k v).map Prod.fst).Nodup := by
  rw [keys_dictInsert]
  by_cases hk : k ∈ d.map Prod.fst
  · simpa [hk] using h
  · simp only [hk, if_false]
    refine List.Nodup.append h (List.nodup_singleton k) ?_
    intro a ha hb
    rw [List.mem_singleton] at hb
    subst hb
    exact hk ha

theorem dictFind_eq_none_iff {α β : Type} [DecidableEq α] (d : List (α × β)) (k : α) :
    dictFind d k = none ↔ k ∉ d.map Prod.fst := by
  induction d with
  | nil => simp [dictFind]
  | cons p rest ih =>
    obtain ⟨k', w⟩ := p
    by_cases h : k' = k
    · subst h
      simp [dictFind]
    · simp [dictFind, h, ih, Ne.symm h]

theorem dictFind_mem {α β : Type} [DecidableEq α] (d : List (α × β)) (k : α) (v : β)
    (h : dictFind d k = some v) : (k, v) ∈ d := by
  induction d with
  | nil => simp [dictFind] at h
  | cons p rest ih =>
    obtain ⟨k', w⟩ := p
    by_cases hk : k' = k
    · subst hk
      have h' : w = v := by simpa [dictFind] using h
      subst h'
      exact List.mem_cons_self _ _
    · simp only [dictFind, if_neg hk] at h
      exact List.mem_cons_of_mem _ (ih h)

theorem mem_dictFind {α β : Type} [DecidableEq α] (d : List (α × β)) (k : α) (v : β)
    (hnd : (d.map Prod.fst).Nodup) (h : (k, v) ∈ d) : dictFind d k = some v := by
  induction d with
  | nil => simp at h
  | cons p rest ih =>
    obtain ⟨k', w⟩ := p
    rw [List.map_cons, List.nodup_cons] at hnd
    rcases List.mem_cons.mp h with he | ht
    · rw [Prod.mk.injEq] at he
      simp [dictFind, he.1.symm, he.2.symm]
    · have hk : k ∈ rest.map Prod.fst := List.mem_map.mpr ⟨(k, v), ht, rfl⟩
      have hne : k' ≠ k := by
        intro e
        subst e
        exact hnd.1 hk
      simp only [dictFind, if_neg hne]
      exact ih hnd.2 ht

theorem countP_keys_eq_one {α β : Type} [DecidableEq α] (d : List (α × β)) (k : α)
    (hnd : (d.map Prod.fst).Nodup) (hk : k ∈ d.map Prod.fst) :
    d.countP (fun p => decide (p.1 = k)) = 1 := by
  induction d with
  | nil => simp at hk
  | cons p rest ih =>
    obtain ⟨k', w⟩ := p
    rw [List.map_cons, List.nodup_cons] at hnd
    rw [List.map_cons, List.mem_cons] at hk
    by_cases h : k' = k
    · subst h
      have h0 : rest.countP (fun p => decide (p.1 = k')) = 0 := by
        rw [List.countP_eq_zero]
        intro a ha
        simp only [decide_eq_true_eq]
        intro e
        exact hnd.1 (List.mem_map.mpr ⟨a, ha, e⟩)
      simp [List.countP_cons, h0]
    · have hk' : k ∈ rest.map Prod.fst := by
        rcases hk with e | m
        · exact absurd e.symm h
        · exact m
      simp [List.countP_cons, h, ih hnd.2 hk']

/-! ### Candidate index lemmas -/

theorem dictFind_idxAppend (idx : Index) (p : Str) (e : CandEntry) (q : Str) :
    dictFind (idxAppend idx p e) q =
      if p = q then some ((dictFind idx q).getD [] ++ [e]) else dictFind idx q := by
  induction idx with
  | nil =>
    simp only [idxAppend, dictFind]
    by_cases h : p = q <;> simp [h]
  | cons pr rest ih =>
    obtain ⟨k, b⟩ := pr
    by_cases h1 : k = p
    · subst h1
      simp only [idxAppend, if_pos rfl, dictFind]
      by_cases h2 : k = q <;> simp [h2]
    · simp only [idxAppend, if_neg h1, dictFind]
      by_cases h2 : k = q
      · subst h2
        have : p ≠ k := fun e => h1 e.symm
        simp [this]
      · simp [h2, ih]

theorem keys_idxAppend (idx : Index) (p : Str) (e : CandEntry) :
    (idxAppend idx p e).map Prod.fst =
      if p ∈ idx.map Prod.fst then idx.map Prod.fst else idx.map Prod.fst ++ [p] := by
  induction idx with
  | nil => simp [idxAppend]
  | cons pr rest ih =>
    obtain ⟨k, b⟩ := pr
    by_cases h1 : k = p
    · subst h1
      simp [idxAppend]
    · simp only [idxAppend, if_neg h1, List.map_cons]
      by_cases h2 : p ∈ rest.map Prod.fst
      · simp [h2, ih, Ne.symm h1]
      · simp [h2, ih, Ne.symm h1]

theorem nodupKeys_idxAppend (idx : Index) (p : Str) (e : CandEntry)
    (h : (idx.map Prod.fst).Nodup) : ((idxAppend idx p e).map Prod.fst).Nodup := by
  rw [keys_idxAppend]
  by_cases hk : p ∈ idx.map Prod.fst
  · simpa [hk] using h
  · simp only [hk, if_false]
    refine List.Nodup.append h (List.nodup_singleton p) ?_
    intro a ha hb
    rw [List.mem_singleton] at hb
    subst hb
    exact hk ha

theorem foldIndex_find (cfg : Config) (cands : List Row) : ∀ (acc : Index) (p : Str),
    dictFind (cands.foldl (candidateStep cfg) acc) p =
      match dictFind acc p with
      | some b => some (b ++ cands.filterMap (entryFor cfg p))
      | none =>
        if cands.filterMap (entryFor cfg p) = [] then none
        else some (cands.filterMap (entryFor cfg p)) := by
  induction cands with
  | nil =>
    intro acc p
    simp only [List.foldl_nil, List.filterMap_nil]
    cases dictFind acc p <;> simp
  | cons row rest ih =>
    intro acc p
    rw [List.foldl_cons, ih (candidateStep cfg acc row) p]
    rcases hp : parse_composite_key (Row.getCell row cfg.cands_composite_key_col) with e | ⟨pfx, sal, parts⟩
    · have hstep : candidateStep cfg acc row = acc := by simp [candidateStep, hp]
      have hent : entryFor cfg p row = none := by simp [entryFor, hp]
      rw [hstep]
      simp only [List.filterMap_cons, hent]
    · have hstep : candidateStep cfg acc row =
          idxAppend acc pfx ⟨Row.getCell row cfg.candidate_id_col, sal, row⟩ := by
        simp [candidateStep, hp]
      rw [hstep]
      by_cases hpp : pfx = p
      · subst hpp
        have hent : entryFor cfg pfx row =
            some ⟨Row.getCell row cfg.candidate_id_col, sal, row⟩ := by
          simp [entryFor, hp]
        rw [dictFind_idxAppend acc pfx _ pfx, if_pos rfl]
        simp only [List.filterMap_cons, hent]
        cases hacc : dictFind acc pfx <;> simp [hacc]
      · have hent : entryFor cfg p row = none := by simp [entryFor, hp, hpp]
        rw [dictFind_idxAppend acc pfx _ p, if_neg hpp]
        simp only [List.filterMap_cons, hent]

theorem buildIndex_find (cfg : Config) (cands : List Row) (p : Str) :
    dictFind (buildIndex cfg cands) p =
      if cands.filterMap (entryFor cfg p) = [] then none
      else some (cands.filterMap (entryFor cfg p)) := by
  rw [buildIndex, foldIndex_find cfg cands [] p]
  rfl

theorem nodupKeys_buildIndex (cfg : Config) (cands : List Row) :
    ((buildIndex cfg cands).map Prod.fst).Nodup := by
  suffices h : ∀ acc : Index, (acc.map Prod.fst).Nodup →
      ((cands.foldl (candidateStep cfg) acc).map Prod.fst).Nodup by
    exact h [] (by simp)
  induction cands with
  | nil => intro acc hacc; simpa using hacc
  | cons row rest ih =>
    intro acc hacc
    rw [List.foldl_cons]
    refine ih (candidateStep cfg acc row) ?_
    rcases hp : parse_composite_key (Row.getCell row cfg.cands_composite_key_col) with e | ⟨pfx, sal, parts⟩
    · simpa [candidateStep, hp] using hacc
    · have hstep : candidateStep cfg acc row =
          idxAppend acc pfx ⟨Row.getCell row cfg.candidate_id_col, sal, row⟩ := by
        simp [candidateStep, hp]
      rw [hstep]
      exact nodupKeys_idxAppend acc pfx _ hacc

theorem entry_parse_of_mem_filterMap (cfg : Config) (p : Str) (cands : List Row)
    (c : CandEntry) (h : c ∈ cands.filterMap (entryFor cfg p)) :
    ∃ parts, parse_composite_key (Row.getCell c.full_row cfg.cands_composite_key_col)
      = Except.ok (p, c.salary, parts) := by
  rcases List.mem_filterMap.mp h with ⟨row, hrow, he⟩
  rcases hp : parse_composite_key (Row.getCell row cfg.cands_composite_key_col) with e | ⟨pfx, sal, parts⟩
  · simp [entryFor, hp] at he
  · by_cases hpp : pfx = p
    · subst hpp
      have he' := he
      simp [entryFor, hp] at he'
      subst he'
      exact ⟨parts, hp⟩
    · simp [entryFor, hp, hpp] at he

/-! ### Matcher lemmas -/

theorem processJob_none_of_parse_error (cfg : Config) (idx : Index) (row : Row) (e : KeyError)
    (h : parse_composite_key (Row.getCell row cfg.jobs_composite_key_col) = Except.error e) :
    processJob cfg idx row = none := by
  simp [processJob, h]

theorem processJob_count (cfg : Config) (idx : Index) (row : Row) (k : Cell) (r : MatchResult)
    (h : processJob cfg idx row = some (k, r)) : r.count = r.matchRows.length := by
  rcases hp : parse_composite_key (Row.getCell row cfg.jobs_composite_key_col) with e | ⟨pfx, t, parts⟩
  · simp [processJob, hp] at h
  · rcases hf : dictFind idx pfx with _ | bucket
    · simp [processJob, hp, hf] at h
      rw [← h.2]
      simp
    · simp [processJob, hp, hf] at h
      rw [← h.2]
      simp

theorem processJob_isSome_of_parse_ok (cfg : Config) (idx : Index) (row : Row)
    (pfx : Str) (t : ℚ) (parts : List Str)
    (hp : parse_composite_key (Row.getCell row cfg.jobs_composite_key_col)
      = Except.ok (pfx, t, parts)) :
    ∃ id r, processJob cfg idx row = some (id, r) := by
  rcases hf : dictFind idx pfx with _ | bucket
  · exact ⟨Row.getCell row cfg.job_id_col,
      ⟨Row.getCell row cfg.jobs_composite_key_col, t, [], 0⟩, by simp [processJob, hp, hf]⟩
  · refine ⟨Row.getCell row cfg.job_id_col,
      ⟨Row.getCell row cfg.jobs_composite_key_col, t,
        (bucket.filter (fun c => decide (c.salary ≤ t))).map CandEntry.full_row,
        ((bucket.filter (fun c => decide (c.salary ≤ t))).map CandEntry.full_row).length⟩, ?_⟩
    simp [processJob, hp, hf]

theorem foldJobs_find (cfg : Config) (idx : Index) (jobs : List Row) :
    ∀ (acc : List (Cell × MatchResult)) (k : Cell),
    dictFind (jobs.foldl (jobStep cfg idx) acc) k =
      match resultsFor cfg idx jobs k with
      | some r => some r
      | none => dictFind acc k := by
  induction jobs with
  | nil => intro acc k; simp [resultsFor]
  | cons row rest ih =>
    intro acc k
    rw [List.foldl_cons, ih (jobStep cfg idx acc row) k]
    rcases hr : resultsFor cfg idx rest k with _ | r
    · simp only [resultsFor, hr]
      rcases hpj : processJob cfg idx row with _ | ⟨id, r0⟩
      · simp [jobStep, hpj]
      · simp only [jobStep, hpj]
        rw [dictFind_dictInsert]
        by_cases hid : id = k <;> simp [hid]
    · simp only [resultsFor, hr]

theorem matchAll_find (cfg : Config) (jobs cands : List Row) (k : Cell) :
    dictFind (find_matching_candidates_for_all_jobs cfg jobs cands) k =
      resultsFor cfg (buildIndex cfg cands) jobs k := by
  rw [find_matching_candidates_for_all_jobs, foldJobs_find]
  cases h : resultsFor cfg (buildIndex cfg cands) jobs k <;> simp [dictFind]

theorem nodupKeys_matchAll (cfg : Config) (jobs cands : List Row) :
    ((find_matching_candidates_for_all_jobs cfg jobs cands).map Prod.fst).Nodup := by
  rw [find_matching_candidates_for_all_jobs]
  suffices h : ∀ acc : List (Cell × MatchResult), (acc.map Prod.fst).Nodup →
      ((jobs.foldl (jobStep cfg (buildIndex cfg cands)) acc).map Prod.fst).Nodup by
    exact h [] (by simp)
  induction jobs with
  | nil => intro acc hacc; simpa using hacc
  | cons row rest ih =>
    intro acc hacc
    rw [List.foldl_cons]
    refine ih (jobStep cfg (buildIndex cfg cands) acc row) ?_
    rcases hpj : processJob cfg (buildIndex cfg cands) row with _ | ⟨id, r0⟩
    · simpa [jobStep, hpj] using hacc
    · simp only [jobStep, hpj]
      exact nodupKeys_dictInsert acc id r0 hacc

theorem resultsFor_some_exists (cfg : Config) (idx : Index) (jobs : List Row) (k : Cell)
    (r : MatchResult) (h : resultsFor cfg idx jobs k = some r) :
    ∃ row ∈ jobs, processJob cfg idx row = some (k, r) := by
  induction jobs with
  | nil => simp [resultsFor] at h
  | cons row rest ih =>
    simp only [resultsFor] at h
    rcases hr : resultsFor cfg idx rest k with _ | r'
    · simp only [hr] at h
      rcases hpj : processJob cfg idx row with _ | ⟨id, r0⟩
      · simp [hpj] at h
      · simp only [hpj] at h
        by_cases hid : id = k
        · rw [if_pos hid] at h
          obtain rfl := Option.some.inj h
          subst hid
          exact ⟨row, List.mem_cons_self _ _, hpj⟩
        · rw [if_neg hid] at h
          cases h
    · simp only [hr] at h
      obtain rfl := Option.some.inj h
      obtain ⟨row', hm, hp'⟩ := ih hr
      exact ⟨row', List.mem_cons_of_mem _ hm, hp'⟩

theorem resultsFor_none_forall (cfg : Config) (idx : Index) (jobs : List Row) (k : Cell)
    (h : resultsFor cfg idx jobs k = none) :
    ∀ row ∈ jobs, ∀ r', processJob cfg idx row ≠ some (k, r') := by
  induction jobs with
  | nil => intro row hm; simp at hm
  | cons row rest ih =>
    simp only [resultsFor] at h
    rcases hr : resultsFor cfg idx rest k with _ | r'
    · simp only [hr] at h
      intro row0 hm0 r0 hp0
      rcases List.mem_cons.mp hm0 with rfl | hm0'
      · simp [hp0] at h
      · exact ih hr row0 hm0' r0 hp0
    · simp only [hr] at h
      cases h

theorem resultsFor_agree (cfg : Config) (idx : Index) (jobs : List Row) (k : Cell)
    (r : MatchResult) (row : Row) (hm : row ∈ jobs)
    (hpr : processJob cfg idx row = some (k, r))
    (hag : ∀ row' ∈ jobs, ∀ r', processJob cfg idx row' = some (k, r') → r' = r) :
    resultsFor cfg idx jobs k = some r := by
  induction jobs with
  | nil => simp at hm
  | cons row0 rest ih =>
    simp only [resultsFor]
    rcases hr : resultsFor cfg idx rest k with _ | r'
    · rcases List.mem_cons.mp hm with rfl | hm'
      · simp [hr, hpr]
      · exact absurd hpr (resultsFor_none_forall cfg idx rest k hr row hm' r)
    · obtain ⟨row', hm', hp'⟩ := resultsFor_some_exists cfg idx rest k r' hr
      rw [hag row' (List.mem_cons_of_mem _ hm') r' hp']

theorem mem_matchAll_exists (cfg : Config) (jobs cands : List Row) (k : Cell) (r : MatchResult)
    (h : (k, r) ∈ find_matching_candidates_for_all_jobs cfg jobs cands) :
    ∃ row ∈ jobs, processJob cfg (buildIndex cfg cands) row = some (k, r) := by
  have hf : dictFind (find_matching_candidates_for_all_jobs cfg jobs cands) k = some r :=
    mem_dictFind _ k r (nodupKeys_matchAll cfg jobs cands) h
  rw [matchAll_find] at hf
  exact resultsFor_some_exists cfg (buildIndex cfg cands) jobs k r hf

/-! ### Export lemmas -/

theorem exportBlocks_filter (cfg : Config) (results : List (Cell × MatchResult)) :
    exportBlocks cfg (results.filter (fun p => decide (p.2.matchRows ≠ []))) =
      exportBlocks cfg results := by
  induction results with
  | nil => rfl
  | cons pr rest ih =>
    obtain ⟨id, d⟩ := pr
    by_cases h : d.matchRows = []
    · have he : List.filter (fun p => decide (p.2.matchRows ≠ [])) ((id, d) :: rest)
          = List.filter (fun p => decide (p.2.matchRows ≠ [])) rest := by
        simp [List.filter_cons, h]
      rw [he, ih]
      simp [exportBlocks, h]
    · have he : List.filter (fun p => decide (p.2.matchRows ≠ [])) ((id, d) :: rest)
          = (id, d) :: List.filter (fun p => decide (p.2.matchRows ≠ [])) rest := by
        simp [List.filter_cons, h]
      rw [he]
      simp only [exportBlocks, if_neg h]
      rw [ih]

theorem exportBlocks_all_empty (cfg : Config) (results : List (Cell × MatchResult))
    (h : ∀ p ∈ results, p.2.matchRows = []) : exportBlocks cfg results = Except.ok ([], 0) := by
  induction results with
  | nil => rfl
  | cons pr rest ih =>
    obtain ⟨id, d⟩ := pr
    have h0 : d.matchRows = [] := h (id, d) (List.mem_cons_self _ _)
    simp only [exportBlocks, if_pos h0]
    exact ih (fun p hp => h p (List.mem_cons_of_mem _ hp))

theorem exportBlocks_ok_nil_iff (cfg : Config) (results : List (Cell × MatchResult))
    (bs : List (List Row)) (t : ℕ) (h : exportBlocks cfg results = Except.ok (bs, t)) :
    bs = [] ↔ ∀ p ∈ results, p.2.matchRows = [] := by
  induction results generalizing bs t with
  | nil =>
    simp only [exportBlocks, Except.ok.injEq] at h
    injection h with h1 h2
    subst h1
    simp
  | cons pr rest ih =>
    obtain ⟨id, d⟩ := pr
    by_cases hd : d.matchRows = []
    · simp only [exportBlocks, if_pos hd] at h
      have hiff := ih bs t h
      constructor
      · intro hbs p hp
        rcases List.mem_cons.mp hp with rfl | hp'
        · exact hd
        · exact hiff.mp hbs p hp'
      · intro hall
        exact hiff.mpr (fun p hp => hall p (List.mem_cons_of_mem _ hp))
    · simp only [exportBlocks, if_neg hd] at h
      rcases hm : d.matchRows.mapM (exportRow cfg id) with e | block
      · rw [hm] at h
        simp [bind, Except.bind] at h
      · rw [hm] at h
        rcases hrec : exportBlocks cfg rest with e | ⟨bs', t'⟩
        · rw [hrec] at h
          simp [bind, Except.bind] at h
        · rw [hrec] at h
          simp only [bind, Except.bind, Except.ok.injEq] at h
          have hbs : block :: bs' = bs := congrArg Prod.fst h
          constructor
          · intro hnil
            rw [← hbs] at hnil
            cases hnil
          · intro hall
            exact absurd (hall (id, d) (List.mem_cons_self _ _)) hd

theorem export_filter (cfg : Config) (results : List (Cell × MatchResult)) :
    export_to_single_excel cfg (results.filter (fun p => decide (p.2.matchRows ≠ []))) =
      export_to_single_excel cfg results := by
  rw [export_to_single_excel, export_to_single_excel, exportBlocks_filter]

theorem export_none_iff (cfg : Config) (results : List (Cell × MatchResult)) :
    export_to_single_excel cfg results = Except.ok none ↔
      ∀ p ∈ results, p.2.matchRows = [] := by
  constructor
  · intro h
    rcases hb : exportBlocks cfg results with e | ⟨bs, t⟩
    · rw [export_to_single_excel, hb] at h
      simp [bind, Except.bind] at h
    · rw [export_to_single_excel, hb] at h
      simp only [bind, Except.bind] at h
      by_cases hbs : bs = []
      · exact (exportBlocks_ok_nil_iff cfg results bs t hb).mp hbs
      · simp [hbs] at h
  · intro h
    rw [export_to_single_excel, exportBlocks_all_empty cfg results h]
    rfl

/-! ### Claim theorems -/

/-- Claim C3: for every key string of exactly four underscore-separated
tokens `A_B_C_N` whose fourth token parses as a number, the key codec
returns the pair (pfx `A_B_C`, ceiling `N`); a missing/NaN key, a key not
composed of exactly four underscore-separated tokens, and a key whose
fourth token is non-numeric all fail with an error instead of returning a
value. -/
theorem C3_parse_key_spec :
    (∀ A B C N : Str, ∀ q : ℚ, '_' ∉ A → '_' ∉ B → '_' ∉ C → '_' ∉ N →
      parseFloat N = some q →
      parse_composite_key (Cell.str (A ++ '_' :: (B ++ '_' :: (C ++ '_' :: N))))
        = Except.ok (A ++ '_' :: (B ++ '_' :: C), q, [A, B, C, N])) ∧
    parse_composite_key Cell.na = Except.error KeyError.invalidKeyFormat ∧
    (∀ s : Str,
      (¬ ∃ A B C N : Str, ('_' ∉ A ∧ '_' ∉ B ∧ '_' ∉ C ∧ '_' ∉ N) ∧
        s = A ++ '_' :: (B ++ '_' :: (C ++ '_' :: N))) →
      parse_composite_key (Cell.str s) = Except.error KeyError.invalidKeyFormat) ∧
    (∀ A B C N : Str, '_' ∉ A → '_' ∉ B → '_' ∉ C → '_' ∉ N →
      parseFloat N = none →
      parse_composite_key (Cell.str (A ++ '_' :: (B ++ '_' :: (C ++ '_' :: N))))
        = Except.error KeyError.invalidCeilingValue) := by
  refine ⟨fun A B C N q hA hB hC hN hq =>
      parse_composite_key_ok_of_decomposed A B C N q hA hB hC hN hq,
    rfl, ?_,
    fun A B C N hA hB hC hN hq => parse_composite_key_ceiling_err A B C N hA hB hC hN hq⟩
  intro s hno
  apply parse_composite_key_err_of_count
  intro hc
  obtain ⟨A, B, C, N, hfree, he⟩ := count_three_decompose s hc
  exact hno ⟨A, B, C, N, hfree, he⟩

/-- Witness for C3 at the key `12_3_4_2.6`. -/
theorem C3_parse_key_spec_witness :
    parse_composite_key
        (Cell.str ("12".toList ++ '_' :: ("3".toList ++ '_' :: ("4".toList ++ '_' :: "2.6".toList))))
      = Except.ok ("12".toList ++ '_' :: ("3".toList ++ '_' :: "4".toList), mkRat (Int.ofNat 13) 5,
          ["12".toList, "3".toList, "4".toList, "2.6".toList]) :=
  C3_parse_key_spec.1 "12".toList "3".toList "4".toList "2.6".toList (mkRat (Int.ofNat 13) 5)
    (by decide) (by decide) (by decide) (by decide) (by decide)

/-- Claim C2: for a job whose key parses and whose pfx has a bucket in the
candidate index, the match set is exactly the bucket filtered by
`candidate.salary <= job.salary`: a bucket candidate is included iff its
ceiling is at most the job's (so equal ceilings are included), and no
field beyond the pfx and the ceiling affects inclusion. -/
theorem C2_bucket_filter_iff (cfg : Config) (cands : List Row) (row : Row)
    (pfx : Str) (t : ℚ) (parts : List Str) (bucket : List CandEntry)
    (hp : parse_composite_key (Row.getCell row cfg.jobs_composite_key_col)
      = Except.ok (pfx, t, parts))
    (hb : dictFind (buildIndex cfg cands) pfx = some bucket) :
    ∃ r : MatchResult,
      processJob cfg (buildIndex cfg cands) row = some (Row.getCell row cfg.job_id_col, r) ∧
      r.matchRows = (bucket.filter (fun c => decide (c.salary ≤ t))).map CandEntry.full_row ∧
      ∀ c ∈ bucket, (c.full_row ∈ r.matchRows ↔ c.salary ≤ t) := by
  have hbeq : bucket = cands.filterMap (entryFor cfg pfx) := by
    rw [buildIndex_find] at hb
    by_cases hnil : cands.filterMap (entryFor cfg pfx) = []
    · rw [if_pos hnil] at hb
      cases hb
    · rw [if_neg hnil] at hb
      exact (Option.some.inj hb).symm
  have hsal : ∀ c' ∈ bucket, ∃ ps,
      parse_composite_key (Row.getCell c'.full_row cfg.cands_composite_key_col)
        = Except.ok (pfx, c'.salary, ps) := by
    intro c' hc'
    exact entry_parse_of_mem_filterMap cfg pfx cands c' (hbeq ▸ hc')
  refine ⟨⟨Row.getCell row cfg.jobs_composite_key_col, t,
      (bucket.filter (fun c => decide (c.salary ≤ t))).map CandEntry.full_row,
      ((bucket.filter (fun c => decide (c.salary ≤ t))).map CandEntry.full_row).length⟩,
    by simp [processJob, hp, hb], rfl, ?_⟩
  intro c hc
  constructor
  · intro hmem
    simp only [List.mem_map] at hmem
    obtain ⟨c', hc'f, he⟩ := hmem
    have hc'b := (List.mem_filter.mp hc'f).1
    have hle' : c'.salary ≤ t := by simpa using (List.mem_filter.mp hc'f).2
    obtain ⟨ps1, h1⟩ := hsal c hc
    obtain ⟨ps2, h2⟩ := hsal c' hc'b
    rw [he] at h2
    rw [h1] at h2
    rw [Except.ok.injEq, Prod.mk.injEq, Prod.mk.injEq] at h2
    rw [h2.2.1]
    exact hle'
  · intro hle'
    exact List.mem_map.mpr ⟨c, List.mem_filter.mpr ⟨hc, by simpa using hle'⟩, rfl⟩

/-- Witness for C2 on the sample tables: job `J1` (ceiling 3.0) against
the `12_3_4` bucket holding ceilings 2.0 and 3.5. -/
theorem C2_bucket_filter_iff_witness :
    parse_composite_key (Row.getCell jobRow1 defaultConfig.jobs_composite_key_col)
      = Except.ok ("12_3_4".toList, mkRat (Int.ofNat 3) 1,
          ["12".toList, "3".toList, "4".toList, "3.0".toList]) ∧
    ∃ r : MatchResult,
      processJob defaultConfig (buildIndex defaultConfig sampleCands) jobRow1
        = some (Row.getCell jobRow1 defaultConfig.job_id_col, r) ∧
      r.matchRows = (([⟨Cell.str "1".toList, mkRat (Int.ofNat 2) 1, candRow1⟩,
          ⟨Cell.str "2".toList, mkRat (Int.ofNat 7) 2, candRow2⟩] : List CandEntry).filter
            (fun c => decide (c.salary ≤ mkRat (Int.ofNat 3) 1))).map CandEntry.full_row ∧
      ∀ c ∈ ([⟨Cell.str "1".toList, mkRat (Int.ofNat 2) 1, candRow1⟩,
          ⟨Cell.str "2".toList, mkRat (Int.ofNat 7) 2, candRow2⟩] : List CandEntry),
        (c.full_row ∈ r.matchRows ↔ c.salary ≤ mkRat (Int.ofNat 3) 1) :=
  ⟨by decide,
   C2_bucket_filter_iff defaultConfig sampleCands jobRow1 "12_3_4".toList
     (mkRat (Int.ofNat 3) 1) ["12".toList, "3".toList, "4".toList, "3.0".toList]
     [⟨Cell.str "1".toList, mkRat (Int.ofNat 2) 1, candRow1⟩,
      ⟨Cell.str "2".toList, mkRat (Int.ofNat 7) 2, candRow2⟩]
     (by decide) (by decide)⟩

/-- Claim C5: matching is monotonic in the ceiling: two jobs with the
same key pfx, ceilings `tB <= tA`, have nested match sets — every row
matched for the lower ceiling is matched for the higher one. -/
theorem C5_monotone (cfg : Config) (idx : Index) (rowA rowB : Row)
    (pfx : Str) (tA tB : ℚ) (pa pb : List Str) (idA idB : Cell) (rA rB : MatchResult)
    (hA : parse_composite_key (Row.getCell rowA cfg.jobs_composite_key_col)
      = Except.ok (pfx, tA, pa))
    (hB : parse_composite_key (Row.getCell rowB cfg.jobs_composite_key_col)
      = Except.ok (pfx, tB, pb))
    (hle : tB ≤ tA)
    (hpA : processJob cfg idx rowA = some (idA, rA))
    (hpB : processJob cfg idx rowB = some (idB, rB)) :
    ∀ m ∈ rB.matchRows, m ∈ rA.matchRows := by
  intro m hm
  rcases hf : dictFind idx pfx with _ | bucket
  · simp [processJob, hB, hf] at hpB
    rw [← hpB.2] at hm
    simp at hm
  · simp [processJob, hA, hf] at hpA
    simp [processJob, hB, hf] at hpB
    rw [← hpA.2]
    rw [← hpB.2] at hm
    simp only [List.mem_map] at hm ⊢
    obtain ⟨c, hcf, rfl⟩ := hm
    have hcb := (List.mem_filter.mp hcf).1
    have hcle : c.salary ≤ tB := by simpa using (List.mem_filter.mp hcf).2
    exact ⟨c, List.mem_filter.mpr ⟨hcb, by simpa using le_trans hcle hle⟩, rfl⟩

/-- Witness for C5: job `J2` (ceiling 4.0) absorbs the match of job `J1`
(ceiling 3.0) on the sample candidates. -/
theorem C5_monotone_witness :
    candRow1 ∈ (⟨Cell.str "12_3_4_4.0".toList, mkRat (Int.ofNat 4) 1,
        [candRow1, candRow2], 2⟩ : MatchResult).matchRows :=
  C5_monotone defaultConfig (buildIndex defaultConfig sampleCands) jobRowA jobRow1
    "12_3_4".toList (mkRat (Int.ofNat 4) 1) (mkRat (Int.ofNat 3) 1)
    ["12".toList, "3".toList, "4".toList, "4.0".toList]
    ["12".toList, "3".toList, "4".toList, "3.0".toList]
    (Cell.str "J2".toList) (Cell.str "J1".toList)
    ⟨Cell.str "12_3_4_4.0".toList, mkRat (Int.ofNat 4) 1, [candRow1, candRow2], 2⟩
    ⟨Cell.str "12_3_4_3.0".toList, mkRat (Int.ofNat 3) 1, [candRow1], 1⟩
    (by decide) (by decide) (by decide) (by decide) (by decide) candRow1 (by decide)

/-- Claim C8: a job whose key parses but whose pfx has no bucket in the
candidate index produces a result with an empty match set and count zero,
not an error. -/
theorem C8_missing_bucket (cfg : Config) (cands : List Row) (row : Row)
    (pfx : Str) (t : ℚ) (parts : List Str)
    (hp : parse_composite_key (Row.getCell row cfg.jobs_composite_key_col)
      = Except.ok (pfx, t, parts))
    (hf : dictFind (buildIndex cfg cands) pfx = none) :
    processJob cfg (buildIndex cfg cands) row
      = some (Row.getCell row cfg.job_id_col,
          ⟨Row.getCell row cfg.jobs_composite_key_col, t, [], 0⟩) := by
  simp [processJob, hp, hf]

/-- Witness for C8: job `J1` against an empty candidates table. -/
theorem C8_missing_bucket_witness :
    processJob defaultConfig (buildIndex defaultConfig []) jobRow1
      = some (Cell.str "J1".toList,
          ⟨Cell.str "12_3_4_3.0".toList, mkRat (Int.ofNat 3) 1, [], 0⟩) :=
  C8_missing_bucket defaultConfig [] jobRow1 "12_3_4".toList (mkRat (Int.ofNat 3) 1)
    ["12".toList, "3".toList, "4".toList, "3.0".toList] (by decide) (by decide)

/-- Counterexample to C4 as stated: two job records share the id `J1` and
both parse; the results dict holds only the second record's MatchResult,
so the first parsed record does not appear in the output mapping with its
MatchResult entry. -/
theorem C4_counterexample :
    processJob defaultConfig (buildIndex defaultConfig []) dupJobRow1
      = some (Cell.str "J1".toList,
          ⟨Cell.str "a_b_c_1.0".toList, mkRat (Int.ofNat 1) 1, [], 0⟩) ∧
    find_matching_candidates_for_all_jobs defaultConfig dupJobs []
      = [(Cell.str "J1".toList,
          ⟨Cell.str "a_b_c_2.0".toList, mkRat (Int.ofNat 2) 1, [], 0⟩)] ∧
    (Cell.str "J1".toList,
      (⟨Cell.str "a_b_c_1.0".toList, mkRat (Int.ofNat 1) 1, [], 0⟩ : MatchResult))
      ∉ find_matching_candidates_for_all_jobs defaultConfig dupJobs [] :=
  ⟨by decide, by decide, by decide⟩

/-- Claim C4 (amended): every entry of the output mapping comes from a job
record whose key parsed; the id of every parsed record appears in the
mapping exactly once, even at zero matches; the entry is that record's
MatchResult whenever all parsed records sharing the id agree on it (in
particular whenever ids are distinct); records whose key fails to parse
are skipped. -/
theorem C4_amended_mapping (cfg : Config) (jobs cands : List Row) :
    (∀ row ∈ jobs, ∀ (id : Cell) (r : MatchResult),
      processJob cfg (buildIndex cfg cands) row = some (id, r) →
      (find_matching_candidates_for_all_jobs cfg jobs cands).countP
        (fun p => decide (p.1 = id)) = 1) ∧
    (∀ row ∈ jobs, ∀ (id : Cell) (r : MatchResult),
      processJob cfg (buildIndex cfg cands) row = some (id, r) →
      (∀ row' ∈ jobs, ∀ r', processJob cfg (buildIndex cfg cands) row' = some (id, r') →
        r' = r) →
      (id, r) ∈ find_matching_candidates_for_all_jobs cfg jobs cands) ∧
    (∀ (id : Cell) (r : MatchResult),
      (id, r) ∈ find_matching_candidates_for_all_jobs cfg jobs cands →
      ∃ row ∈ jobs, processJob cfg (buildIndex cfg cands) row = some (id, r)) ∧
    (∀ (row : Row) (e : KeyError),
      parse_composite_key (Row.getCell row cfg.jobs_composite_key_col) = Except.error e →
      processJob cfg (buildIndex cfg cands) row = none) := by
  refine ⟨?_, ?_, mem_matchAll_exists cfg jobs cands,
    fun row e he => processJob_none_of_parse_error cfg (buildIndex cfg cands) row e he⟩
  · intro row hm id r hpr
    have hsome : resultsFor cfg (buildIndex cfg cands) jobs id ≠ none := fun hn =>
      resultsFor_none_forall cfg (buildIndex cfg cands) jobs id hn row hm r hpr
    have hfind : dictFind (find_matching_candidates_for_all_jobs cfg jobs cands) id ≠ none := by
      rw [matchAll_find]
      exact hsome
    have hkey : id ∈ (find_matching_candidates_for_all_jobs cfg jobs cands).map Prod.fst := by
      by_contra hno
      exact hfind ((dictFind_eq_none_iff _ _).mpr hno)
    exact countP_keys_eq_one _ id (nodupKeys_matchAll cfg jobs cands) hkey
  · intro row hm id r hpr hag
    have h := resultsFor_agree cfg (buildIndex cfg cands) jobs id r row hm hpr hag
    rw [← matchAll_find] at h
    exact dictFind_mem _ id r h

/-- Witness for the amended C4 on the sample tables: `J1` appears exactly
once in the results mapping. -/
theorem C4_amended_mapping_witness :
    (find_matching_candidates_for_all_jobs defaultConfig sampleJobs sampleCands).countP
      (fun p => decide (p.1 = Cell.str "J1".toList)) = 1 :=
  (C4_amended_mapping defaultConfig sampleJobs sampleCands).1 jobRow1 (by decide)
    (Cell.str "J1".toList)
    ⟨Cell.str "12_3_4_3.0".toList, mkRat (Int.ofNat 3) 1, [candRow1], 1⟩ (by decide)

/-- Claim C6: index building is deterministic and idempotent (a pure
function of the candidates table), no bucket is empty, and the bucket of
each key pfx is exactly the valid candidates with that pfx in
input-table order. -/
theorem C6_index_idempotent_ordered (cfg : Config) (cands : List Row) :
    buildIndex cfg cands = buildIndex cfg cands ∧
    (∀ (p : Str) (b : List CandEntry), (p, b) ∈ buildIndex cfg cands → b ≠ []) ∧
    (∀ p : Str, dictFind (buildIndex cfg cands) p =
      if cands.filterMap (entryFor cfg p) = [] then none
      else some (cands.filterMap (entryFor cfg p))) := by
  refine ⟨rfl, ?_, fun p => buildIndex_find cfg cands p⟩
  intro p b hm
  have hf := mem_dictFind _ p b (nodupKeys_buildIndex cfg cands) hm
  rw [buildIndex_find] at hf
  by_cases hnil : cands.filterMap (entryFor cfg p) = []
  · rw [if_pos hnil] at hf
    cases hf
  · rw [if_neg hnil] at hf
    intro hb
    apply hnil
    rw [Option.some.inj hf]
    exact hb

/-- Witness for C6: the `12_3_4` bucket of the sample candidates is
non-empty. -/
theorem C6_index_idempotent_ordered_witness :
    dictFind (buildIndex defaultConfig sampleCands) "12_3_4".toList
      = some [⟨Cell.str "1".toList, mkRat (Int.ofNat 2) 1, candRow1⟩,
              ⟨Cell.str "2".toList, mkRat (Int.ofNat 7) 2, candRow2⟩] ∧
    ([⟨Cell.str "1".toList, mkRat (Int.ofNat 2) 1, candRow1⟩,
      ⟨Cell.str "2".toList, mkRat (Int.ofNat 7) 2, candRow2⟩] : List CandEntry) ≠ [] :=
  ⟨by decide,
   (C6_index_idempotent_ordered defaultConfig sampleCands).2.1 "12_3_4".toList
     [⟨Cell.str "1".toList, mkRat (Int.ofNat 2) 1, candRow1⟩,
      ⟨Cell.str "2".toList, mkRat (Int.ofNat 7) 2, candRow2⟩] (by decide)⟩

/-- Claim C7: record-level key errors never escalate: a candidate whose
key fails to parse is excluded from the index without affecting the rest,
and a job whose key fails to parse is skipped while the remaining jobs
are processed — deletion of the malformed record leaves the outcome
unchanged. -/
theorem C7_record_errors_local (cfg : Config) :
    (∀ (xs ys : List Row) (row : Row) (e : KeyError),
      parse_composite_key (Row.getCell row cfg.cands_composite_key_col) = Except.error e →
      buildIndex cfg (xs ++ row :: ys) = buildIndex cfg (xs ++ ys)) ∧
    (∀ (cands xs ys : List Row) (row : Row) (e : KeyError),
      parse_composite_key (Row.getCell row cfg.jobs_composite_key_col) = Except.error e →
      find_matching_candidates_for_all_jobs cfg (xs ++ row :: ys) cands =
        find_matching_candidates_for_all_jobs cfg (xs ++ ys) cands) := by
  constructor
  · intro xs ys row e hp
    rw [buildIndex, buildIndex, List.foldl_append, List.foldl_append, List.foldl_cons]
    have hstep : candidateStep cfg (xs.foldl (candidateStep cfg) []) row
        = xs.foldl (candidateStep cfg) [] := by
      simp [candidateStep, hp]
    rw [hstep]
  · intro cands xs ys row e hp
    rw [find_matching_candidates_for_all_jobs, find_matching_candidates_for_all_jobs,
      List.foldl_append, List.foldl_append, List.foldl_cons]
    have hstep : jobStep cfg (buildIndex cfg cands)
        (xs.foldl (jobStep cfg (buildIndex cfg cands)) []) row
        = xs.foldl (jobStep cfg (buildIndex cfg cands)) [] := by
      simp [jobStep, processJob, hp]
    rw [hstep]

/-- Witness for C7: a two-token candidate key and a three-token job key
are skipped without disturbing the other records. -/
theorem C7_record_errors_local_witness :
    buildIndex defaultConfig ([candRow1] ++ badCandRow :: [candRow2])
      = buildIndex defaultConfig ([candRow1] ++ [candRow2]) ∧
    find_matching_candidates_for_all_jobs defaultConfig ([jobRow1] ++ badJobRow :: []) sampleCands
      = find_matching_candidates_for_all_jobs defaultConfig ([jobRow1] ++ []) sampleCands :=
  ⟨(C7_record_errors_local defaultConfig).1 [candRow1] [candRow2] badCandRow
      KeyError.invalidKeyFormat (by decide),
   (C7_record_errors_local defaultConfig).2 sampleCands [jobRow1] [] badJobRow
      KeyError.invalidKeyFormat (by decide)⟩

/-- Claim C9: zero-match jobs contribute no rows to the emitted table
(removing them does not change the export), the export writes no artifact
precisely when every job's match set is empty, and a parsed job still
receives a results entry for the summary even with zero matches. -/
theorem C9_export_empty_policy (cfg : Config) :
    (∀ results : List (Cell × MatchResult),
      export_to_single_excel cfg (results.filter (fun p => decide (p.2.matchRows ≠ [])))
        = export_to_single_excel cfg results) ∧
    (∀ results : List (Cell × MatchResult),
      export_to_single_excel cfg results = Except.ok none ↔
        ∀ p ∈ results, p.2.matchRows = []) ∧
    (∀ (idx : Index) (row : Row) (pfx : Str) (t : ℚ) (parts : List Str),
      parse_composite_key (Row.getCell row cfg.jobs_composite_key_col)
        = Except.ok (pfx, t, parts) →
      ∃ id r, processJob cfg idx row = some (id, r)) :=
  ⟨export_filter cfg, export_none_iff cfg,
   fun idx row pfx t parts hp => processJob_isSome_of_parse_ok cfg idx row pfx t parts hp⟩

/-- Witness for C9: a results mapping whose only job has zero matches
produces no artifact, and a parsed zero-match job still yields an entry. -/
theorem C9_export_empty_policy_witness :
    export_to_single_excel defaultConfig
      [(Cell.str "J1".toList, ⟨Cell.str "a_b_c_1.0".toList, mkRat (Int.ofNat 1) 1, [], 0⟩)]
      = Except.ok none ∧
    ∃ id r, processJob defaultConfig [] jobRow1 = some (id, r) :=
  ⟨((C9_export_empty_policy defaultConfig).2.1 _).mpr (by decide),
   (C9_export_empty_policy defaultConfig).2.2 [] jobRow1 "12_3_4".toList
     (mkRat (Int.ofNat 3) 1) ["12".toList, "3".toList, "4".toList, "3.0".toList] (by decide)⟩

/-- Claim C10: every MatchResult stored in the matcher's output mapping
has `count` equal to the number of rows in its match set. -/
theorem C10_count_invariant (cfg : Config) (jobs cands : List Row) (id : Cell)
    (r : MatchResult)
    (h : (id, r) ∈ find_matching_candidates_for_all_jobs cfg jobs cands) :
    r.count = r.matchRows.length := by
  obtain ⟨row, hm, hp⟩ := mem_matchAll_exists cfg jobs cands id r h
  exact processJob_count cfg (buildIndex cfg cands) row id r hp

/-- Witness for C10 on the sample tables. -/
theorem C10_count_invariant_witness :
    (Cell.str "J1".toList,
      (⟨Cell.str "12_3_4_3.0".toList, mkRat (Int.ofNat 3) 1, [candRow1], 1⟩ : MatchResult))
      ∈ find_matching_candidates_for_all_jobs defaultConfig sampleJobs sampleCands ∧
    (1 : ℕ) = [candRow1].length :=
  ⟨by decide,
   C10_count_invariant defaultConfig sampleJobs sampleCands (Cell.str "J1".toList)
     ⟨Cell.str "12_3_4_3.0".toList, mkRat (Int.ofNat 3) 1, [candRow1], 1⟩ (by decide)⟩

/-- Claim C1 is violated by the code: on a job with one matching
candidate, the emitted row is not the candidate's columns with a single
leading `job_id` column — the export also appends the preview-only
`extracted_salary` column, because the frame appended to the output list
at src line 162 is mutated in place at src line 167 before concatenation.
The evaluation below exhibits the emitted row with four columns where the
claim predicts three. -/
theorem C1_export_adds_preview_column :
    find_matching_candidates_for_all_jobs defaultConfig sampleJobs [candRow1]
      = [(Cell.str "J1".toList,
          ⟨Cell.str "12_3_4_3.0".toList, mkRat (Int.ofNat 3) 1, [candRow1], 1⟩)] ∧
    export_to_single_excel defaultConfig
        (find_matching_candidates_for_all_jobs defaultConfig sampleJobs [candRow1])
      = Except.ok (some ([[("job_id".toList, Cell.str "J1".toList),
          ("candidate_id".toList, Cell.str "1".toList),
          ("composit_key".toList, Cell.str "12_3_4_2.0".toList),
          ("extracted_salary".toList, Cell.num (mkRat (Int.ofNat 2) 1))]], 1)) ∧
    ([("job_id".toList, Cell.str "J1".toList)] ++ candRow1)
      ≠ [("job_id".toList, Cell.str "J1".toList),
         ("candidate_id".toList, Cell.str "1".toList),
         ("composit_key".toList, Cell.str "12_3_4_2.0".toList),
         ("extracted_salary".toList, Cell.num (mkRat (Int.ofNat 2) 1))] :=
  ⟨by decide, by decide, by decide⟩

end JobMatch
